import Mathlib

/-!
Verification of the natural-language specification of natsova/ImageClassifier
against a shallow embedding of its Python sources.

Conventions of the embedding:
* Python strings are lists of Unicode codepoints (`List Nat`); the string
  methods used by the sources (`str.strip`, `str.lower`) are embedded over
  the ASCII range they are exercised on.
* File contents (image bytes) are abstracted as `Nat` values; two files are
  byte-identical exactly when these values are equal, and the MD5 content
  hash of `DatasetManager.remove_duplicates` is injective on contents at
  this level of abstraction (hash = content).
* A category folder on disk is a list of `(index, content)` pairs, one per
  stored `<index>.jpg` file, listed in directory scan order.
* The external collaborators (PIL, bing_image_downloader) are parameters:
  a decode oracle for PIL, an attempt-outcome oracle for the search service.
-/

/-! ## Python string primitives (core/domain string handling) -/

/-- A Python string as its list of codepoints. -/
abbrev PyStr := List Nat

/-- Whitespace recognised by `str.strip` on the ASCII range:
space, tab, newline, carriage return, vertical tab, form feed. -/
def pyIsSpace (c : Nat) : Bool :=
  c == 32 || c == 9 || c == 10 || c == 13 || c == 11 || c == 12

/-- One codepoint of `str.lower` on the ASCII range. -/
def pyLower (c : Nat) : Nat :=
  if 65 ≤ c ∧ c ≤ 90 then c + 32 else c

/-- Python `s.strip()`: drop leading and trailing whitespace. -/
def pyStrip (s : PyStr) : PyStr :=
  (((s.dropWhile pyIsSpace).reverse.dropWhile pyIsSpace)).reverse

/-- Python `s.lower()`. -/
def pyLowerStr (s : PyStr) : PyStr := s.map pyLower

/-! ## domain/entities/category.py -/

/-- Embeds `Category.__post_init__`: `self.name.strip().lower()` . -/
def Category.normalize (s : PyStr) : PyStr := pyLowerStr (pyStrip s)

/-- Domain entity `Category`: a frozen dataclass holding one string field. -/
structure Category where
  name : PyStr
deriving DecidableEq, Repr

/-- Constructing a `Category` runs `__post_init__`, which replaces the
supplied name by its normalization. -/
def Category.make (s : PyStr) : Category := ⟨Category.normalize s⟩

/-! ## domain/value_objects/training_metrics.py -/

/-- Metric values are numbers; `float` arithmetic is not exercised beyond
the two comparisons `0.0 <= value` and `value <= 1.0`, which are exact, so
values are embedded as rationals. -/
structure TrainingMetrics where
  metrics : List (String × Rat)
deriving DecidableEq, Repr

/-- Embeds the loop of `TrainingMetrics.__post_init__`: scan the entries in
order and raise `ValueError` (carrying the metric name) at the first value
outside [0, 1].  The `isinstance` guard cannot fire in a typed embedding:
every value is a number by construction. -/
def checkMetrics : List (String × Rat) → Except String Unit
  | [] => Except.ok ()
  | (n, v) :: rest =>
      if 0 ≤ v ∧ v ≤ 1 then checkMetrics rest
      else Except.error n

/-- Constructing a `TrainingMetrics` runs `__post_init__`: the record exists
exactly when the check raises nothing. -/
def TrainingMetrics.make (ms : List (String × Rat)) : Except String TrainingMetrics :=
  match checkMetrics ms with
  | Except.ok _ => Except.ok ⟨ms⟩
  | Except.error n => Except.error n

/-- Embeds `TrainingMetrics.get` as a method on the receiver: the result is
`KeyError` (carrying the name) when the metric is absent and the stored
value otherwise, paired with the receiver as the method leaves it (the
body contains no assignment, so it is returned unchanged). -/
def TrainingMetrics.get (t : TrainingMetrics) (n : String) :
    Except String Rat × TrainingMetrics :=
  (match t.metrics.lookup n with
   | some v => Except.ok v
   | none => Except.error n, t)

/-- Embeds `TrainingMetrics.as_dict` as a method on the receiver:
`dict(self.metrics)` builds a fresh dictionary with the same entries (under
value semantics, the list of stored entries), paired with the receiver as
the method leaves it. -/
def TrainingMetrics.as_dict (t : TrainingMetrics) :
    List (String × Rat) × TrainingMetrics :=
  (t.metrics, t)

/-! ## interface_adapters/processors/image_processor_pillow.py -/

/-- A PIL image: its mode string and its (abstracted) pixel data. -/
structure PyImage where
  mode : String
  data : Nat
deriving DecidableEq, Repr

/-- The PIL collaborator, abstracted: `decode` is `Image.open` followed by
`verify`/full decode (`none` = any decode step raises), `convertData` is
the pixel transformation of `img.convert` to RGB, `encode` is the byte
stream `img.save(path, "JPEG")` writes. -/
structure PillowLib where
  decode : Nat → Option PyImage
  convertData : Nat → Nat
  encode : PyImage → Nat

/-- Embeds `ImageProcessorPillow.validate_and_convert`.  The file at the
given path is the `Option Nat` component of the result: `some` = present
with those bytes, `none` would mean deleted (which this function never
does).  Any decode failure is caught (`except Exception`), logged and
turned into `False`; the embedding is a total function, so nothing
propagates to the caller. -/
def validate_and_convert (lib : PillowLib) (file : Nat) : Bool × Option Nat :=
  match lib.decode file with
  | none => (false, some file)
  | some img =>
      let img2 := if img.mode = "RGB" then img
                  else { mode := "RGB", data := lib.convertData img.data }
      (true, some (lib.encode img2))

/-! ## Helper lemmas on dropWhile used by the Category theorems -/

theorem dropWhile_idem (p : Nat → Bool) (l : List Nat) :
    (l.dropWhile p).dropWhile p = l.dropWhile p := by
  induction l with
  | nil => rfl
  | cons x t ih =>
      by_cases hx : p x
      · simpa [List.dropWhile_cons, hx] using ih
      · simp [List.dropWhile_cons, hx]

theorem dropWhile_head_not (p : Nat → Bool) (l : List Nat) :
    l.dropWhile p = [] ∨ ∃ x t, l.dropWhile p = x :: t ∧ p x = false := by
  induction l with
  | nil => exact Or.inl rfl
  | cons x t ih =>
      by_cases hx : p x
      · simpa [List.dropWhile_cons, hx] using ih
      · exact Or.inr ⟨x, t, by simp [List.dropWhile_cons, hx], by simpa using hx⟩

theorem dropWhile_append_nonnil (p : Nat → Bool) (l₁ l₂ : List Nat)
    (h : l₁.dropWhile p ≠ []) :
    (l₁ ++ l₂).dropWhile p = l₁.dropWhile p ++ l₂ := by
  induction l₁ with
  | nil => simp at h
  | cons x t ih =>
      by_cases hx : p x
      · have h' : t.dropWhile p ≠ [] := by
          simpa [List.dropWhile_cons, hx] using h
        simp [List.dropWhile_cons, hx, ih h']
      · simp [List.dropWhile_cons, hx]

theorem dropWhile_append_nil (p : Nat → Bool) (l₁ l₂ : List Nat)
    (h : l₁.dropWhile p = []) :
    (l₁ ++ l₂).dropWhile p = l₂.dropWhile p := by
  induction l₁ with
  | nil => simp
  | cons x t ih =>
      by_cases hx : p x
      · have h' : t.dropWhile p = [] := by
          simpa [List.dropWhile_cons, hx] using h
        simp [List.dropWhile_cons, hx, ih h']
      · simp [List.dropWhile_cons, hx] at h

theorem mem_dropWhile_of_not (p : Nat → Bool) (l : List Nat) (c : Nat)
    (hc : c ∈ l) (hp : p c = false) : c ∈ l.dropWhile p := by
  induction l with
  | nil => cases hc
  | cons x t ih =>
      by_cases hx : p x
      · rcases List.mem_cons.mp hc with h | h
        · subst h; simp [hx] at hp
        · simpa [List.dropWhile_cons, hx] using ih h
      · simp [List.dropWhile_cons, hx]
        rcases List.mem_cons.mp hc with h | h
        · exact Or.inl h
        · exact Or.inr h

theorem dropWhile_eq_nil_of_all (p : Nat → Bool) (l : List Nat) :
    (∀ c ∈ l, p c = true) → l.dropWhile p = [] := by
  induction l with
  | nil => intro _; rfl
  | cons x t ih =>
      intro h
      have hx := h x (List.mem_cons_self _ _)
      have ht : t.dropWhile p = [] := ih fun c hc => h c (List.mem_cons_of_mem _ hc)
      simp [List.dropWhile_cons, hx, ht]

theorem pyIsSpace_pyLower (c : Nat) : pyIsSpace (pyLower c) = pyIsSpace c := by
  by_cases h : 65 ≤ c ∧ c ≤ 90
  · have h1 : pyIsSpace (pyLower c) = false := by
      simp only [pyLower, if_pos h, pyIsSpace, Bool.or_eq_false_iff,
        beq_eq_false_iff_ne, ne_eq]
      omega
    have h2 : pyIsSpace c = false := by
      simp only [pyIsSpace, Bool.or_eq_false_iff, beq_eq_false_iff_ne, ne_eq]
      omega
    rw [h1, h2]
  · simp [pyLower, if_neg h]

theorem pyLower_idem (c : Nat) : pyLower (pyLower c) = pyLower c := by
  by_cases h : 65 ≤ c ∧ c ≤ 90
  · simp only [pyLower, if_pos h]
    rw [if_neg]
    omega
  · simp only [pyLower, if_neg h]

theorem pyStrip_no_leading (s : PyStr) :
    (pyStrip s).dropWhile pyIsSpace = pyStrip s := by
  unfold pyStrip
  rcases dropWhile_head_not pyIsSpace s with h | ⟨x, t, h, hx⟩
  · rw [h]; rfl
  · rw [h]
    by_cases ht : t.reverse.dropWhile pyIsSpace = []
    · rw [List.reverse_cons, dropWhile_append_nil _ _ _ ht]
      simp [List.dropWhile_cons, hx]
    · rw [List.reverse_cons, dropWhile_append_nonnil _ _ _ ht]
      simp [List.reverse_append, List.dropWhile_cons, hx]

theorem pyStrip_idem (s : PyStr) : pyStrip (pyStrip s) = pyStrip s := by
  have h1 : (pyStrip s).dropWhile pyIsSpace = pyStrip s := pyStrip_no_leading s
  have h2 : (pyStrip s).reverse = (s.dropWhile pyIsSpace).reverse.dropWhile pyIsSpace := by
    unfold pyStrip; rw [List.reverse_reverse]
  calc pyStrip (pyStrip s)
      = (((pyStrip s).dropWhile pyIsSpace).reverse.dropWhile pyIsSpace).reverse := rfl
    _ = ((pyStrip s).reverse.dropWhile pyIsSpace).reverse := by rw [h1]
    _ = (((s.dropWhile pyIsSpace).reverse.dropWhile pyIsSpace).dropWhile pyIsSpace).reverse := by
          rw [h2]
    _ = ((s.dropWhile pyIsSpace).reverse.dropWhile pyIsSpace).reverse := by
          rw [dropWhile_idem]
    _ = pyStrip s := rfl

theorem dropWhile_map_lower (l : List Nat) :
    (l.map pyLower).dropWhile pyIsSpace = (l.dropWhile pyIsSpace).map pyLower := by
  induction l with
  | nil => rfl
  | cons x t ih =>
      by_cases hx : pyIsSpace x
      · have hlx : pyIsSpace (pyLower x) = true := by rw [pyIsSpace_pyLower]; exact hx
        simp [List.dropWhile_cons, hx, hlx, ih]
      · have hlx : pyIsSpace (pyLower x) = false := by
          rw [pyIsSpace_pyLower]; simpa using hx
        simp [List.dropWhile_cons, hx, hlx]

theorem pyStrip_pyLowerStr (s : PyStr) :
    pyStrip (pyLowerStr s) = pyLowerStr (pyStrip s) := by
  unfold pyStrip pyLowerStr
  rw [dropWhile_map_lower, ← List.map_reverse, dropWhile_map_lower, ← List.map_reverse]

theorem pyLowerStr_idem (s : PyStr) : pyLowerStr (pyLowerStr s) = pyLowerStr s := by
  unfold pyLowerStr
  rw [List.map_map]
  exact List.map_congr_left fun c _ => pyLower_idem c

theorem Category.normalize_idem (s : PyStr) :
    Category.normalize (Category.normalize s) = Category.normalize s := by
  unfold Category.normalize
  rw [pyStrip_pyLowerStr, pyStrip_idem, pyLowerStr_idem]

theorem pyStrip_pad (s w1 w2 : PyStr)
    (hw1 : ∀ c ∈ w1, pyIsSpace c = true) (hw2 : ∀ c ∈ w2, pyIsSpace c = true) :
    pyStrip (w1 ++ s ++ w2) = pyStrip s := by
  have hw1nil : w1.dropWhile pyIsSpace = [] := dropWhile_eq_nil_of_all _ _ hw1
  have hw2nil : w2.reverse.dropWhile pyIsSpace = [] :=
    dropWhile_eq_nil_of_all _ _ fun c hc => hw2 c (List.mem_reverse.mp hc)
  unfold pyStrip
  rw [List.append_assoc, dropWhile_append_nil _ _ _ hw1nil]
  rcases dropWhile_head_not pyIsSpace s with h | ⟨x, t, h, hx⟩
  · have hs : (s ++ w2).dropWhile pyIsSpace = w2.dropWhile pyIsSpace :=
      dropWhile_append_nil _ _ _ h
    have hw2nil' : w2.dropWhile pyIsSpace = [] := dropWhile_eq_nil_of_all _ _ hw2
    rw [hs, hw2nil', h]
  · have hne : s.dropWhile pyIsSpace ≠ [] := by rw [h]; simp
    rw [dropWhile_append_nonnil _ _ _ hne, List.reverse_append,
      dropWhile_append_nil _ _ _ hw2nil]

theorem Category.normalize_pad (s w1 w2 : PyStr)
    (hw1 : ∀ c ∈ w1, pyIsSpace c = true) (hw2 : ∀ c ∈ w2, pyIsSpace c = true) :
    Category.normalize (w1 ++ s ++ w2) = Category.normalize s := by
  unfold Category.normalize
  rw [pyStrip_pad s w1 w2 hw1 hw2]

theorem Category.normalize_lower (s : PyStr) :
    Category.normalize (pyLowerStr s) = Category.normalize s := by
  unfold Category.normalize
  rw [pyStrip_pyLowerStr, pyLowerStr_idem]

theorem pyStrip_ne_nil (s : PyStr) (c : Nat) (hc : c ∈ s)
    (hns : pyIsSpace c = false) : pyStrip s ≠ [] := by
  have h1 : c ∈ s.dropWhile pyIsSpace := mem_dropWhile_of_not _ _ _ hc hns
  have h2 : c ∈ (s.dropWhile pyIsSpace).reverse := List.mem_reverse.mpr h1
  have h3 : c ∈ ((s.dropWhile pyIsSpace).reverse.dropWhile pyIsSpace) :=
    mem_dropWhile_of_not _ _ _ h2 hns
  have h4 : c ∈ pyStrip s := by
    unfold pyStrip
    exact List.mem_reverse.mpr h3
  intro hnil
  rw [hnil] at h4
  cases h4

/-- C7.  Category name normalization is idempotent and collapsing:
constructing a `Category` stores the trimmed, lower-cased name; rebuilding
a `Category` from an already-constructed name changes nothing; whitespace
padding and case variants of the same identifier produce equal names.  The
claim's final part — that the resulting name is always non-empty — is false
(the constructor performs no emptiness check, see the counterexample), and
holds as amended: the name is non-empty whenever the input has at least one
non-whitespace character. -/
theorem C7_category_normalization (x : PyStr) :
    (Category.make x).name = Category.normalize x
  ∧ Category.make (Category.make x).name = Category.make x
  ∧ Category.normalize (Category.normalize x) = Category.normalize x
  ∧ (∀ w1 w2 : PyStr, (∀ c ∈ w1, pyIsSpace c = true) →
       (∀ c ∈ w2, pyIsSpace c = true) →
       Category.make (w1 ++ x ++ w2) = Category.make x)
  ∧ Category.make (pyLowerStr x) = Category.make x
  ∧ (∀ c ∈ x, pyIsSpace c = false → (Category.make x).name ≠ []) := by
  refine ⟨rfl, ?_, Category.normalize_idem x, ?_, ?_, ?_⟩
  · show Category.mk (Category.normalize (Category.normalize x)) = Category.mk (Category.normalize x)
    rw [Category.normalize_idem]
  · intro w1 w2 hw1 hw2
    show Category.mk (Category.normalize (w1 ++ x ++ w2)) = Category.mk (Category.normalize x)
    rw [Category.normalize_pad x w1 w2 hw1 hw2]
  · show Category.mk (Category.normalize (pyLowerStr x)) = Category.mk (Category.normalize x)
    rw [Category.normalize_lower]
  · intro c hc hns
    show Category.normalize x ≠ []
    unfold Category.normalize pyLowerStr
    intro hnil
    exact pyStrip_ne_nil x c hc hns (List.map_eq_nil_iff.mp hnil)

/-- C7 counterexample: the claim asserts the constructed name is non-empty
for every input, but constructing a `Category` from the one-space string
(codepoint 32) yields the empty name — the constructor validates nothing. -/
theorem C7_counterexample_empty_name : (Category.make [32]).name = [] := by rfl

theorem checkMetrics_ok_iff (ms : List (String × Rat)) :
    checkMetrics ms = Except.ok () ↔ ∀ p ∈ ms, 0 ≤ p.2 ∧ p.2 ≤ 1 := by
  induction ms with
  | nil => simp [checkMetrics]
  | cons p rest ih =>
      obtain ⟨n, v⟩ := p
      by_cases h : 0 ≤ v ∧ v ≤ 1
      · simp only [checkMetrics, if_pos h, ih]
        constructor
        · intro hall q hq
          rcases List.mem_cons.mp hq with hq | hq
          · subst hq; exact h
          · exact hall q hq
        · intro hall q hq
          exact hall q (List.mem_cons_of_mem _ hq)
      · constructor
        · intro hc
          simp [checkMetrics, if_neg h] at hc
        · intro hall
          exact absurd (hall (n, v) (List.mem_cons_self _ _)) h

theorem TrainingMetrics.make_eq_ok (ms : List (String × Rat)) (t : TrainingMetrics) :
    TrainingMetrics.make ms = Except.ok t ↔
      checkMetrics ms = Except.ok () ∧ t = ⟨ms⟩ := by
  unfold TrainingMetrics.make
  rcases hc : checkMetrics ms with n | u
  · constructor
    · intro h
      cases h
    · intro h
      cases h.1
  · cases u
    constructor
    · intro h
      cases h
      exact ⟨rfl, rfl⟩
    · intro h
      rw [h.2]

/-- C8.  `TrainingMetrics` construction succeeds exactly when every metric
value lies in [0, 1] (`__post_init__` raises `ValueError` otherwise, and in
the typed embedding every value is a number, so the `isinstance` branch
cannot fire); on success the record stores the given entries; the record is
never mutated afterwards: both `get` and `as_dict` return the receiver as
it was, and `as_dict` hands back a dictionary equal to the stored entries
rather than the record's own mutable view. -/
theorem C8_training_metrics_contract (ms : List (String × Rat)) :
    ((∃ t, TrainingMetrics.make ms = Except.ok t) ↔ ∀ p ∈ ms, 0 ≤ p.2 ∧ p.2 ≤ 1)
  ∧ (∀ t, TrainingMetrics.make ms = Except.ok t → t.metrics = ms)
  ∧ (∀ t : TrainingMetrics, ∀ n, (t.get n).2 = t)
  ∧ (∀ t : TrainingMetrics, (t.as_dict).2 = t ∧ (t.as_dict).1 = t.metrics)
  ∧ (∀ t : TrainingMetrics, ∀ n v, t.metrics.lookup n = some v →
       (t.get n).1 = Except.ok v) := by
  refine ⟨?_, ?_, fun t n => rfl, fun t => ⟨rfl, rfl⟩, ?_⟩
  · constructor
    · intro ⟨t, ht⟩
      rw [← checkMetrics_ok_iff]
      exact ((TrainingMetrics.make_eq_ok ms t).mp ht).1
    · intro hall
      have hc : checkMetrics ms = Except.ok () := (checkMetrics_ok_iff ms).mpr hall
      exact ⟨⟨ms⟩, (TrainingMetrics.make_eq_ok ms ⟨ms⟩).mpr ⟨hc, rfl⟩⟩
  · intro t ht
    rw [((TrainingMetrics.make_eq_ok ms t).mp ht).2]
  · intro t n v hv
    unfold TrainingMetrics.get
    rw [hv]

/-- C9.  `ImageProcessorPillow.validate_and_convert` on any file: a decode
failure yields `False` with the file left in place (not deleted — removal is
the caller's job); a successful decode yields `True` with the file
re-encoded in place as the JPEG bytes of an RGB-mode image; and the file at
the path is never deleted by this function.  The embedding is a total
function over an arbitrary PIL oracle, matching the catch-all `except`
that keeps every decode error from reaching the caller. -/
theorem C9_validate_and_convert_contract (lib : PillowLib) (file : Nat) :
    (lib.decode file = none → validate_and_convert lib file = (false, some file))
  ∧ (∀ img, lib.decode file = some img →
       ∃ img2 : PyImage, img2.mode = "RGB" ∧
         validate_and_convert lib file = (true, some (lib.encode img2)))
  ∧ (validate_and_convert lib file).2 ≠ none := by
  refine ⟨?_, ?_, ?_⟩
  · intro h
    unfold validate_and_convert
    rw [h]
  · intro img h
    by_cases hm : img.mode = "RGB"
    · refine ⟨img, hm, ?_⟩
      unfold validate_and_convert
      rw [h]
      simp [hm]
    · refine ⟨{ mode := "RGB", data := lib.convertData img.data }, rfl, ?_⟩
      unfold validate_and_convert
      rw [h]
      simp [hm]
  · unfold validate_and_convert
    rcases lib.decode file with _ | img
    · simp
    · simp

/-! ## core/dataset_manager.py : persisted dataset model -/

/-- A stored file of one category's folder: its integer filename (the
`<index>` of `<index>.jpg`) and its content bytes, in directory scan
order. -/
abbrev Folder := List (Nat × Nat)

/-- The dataset tree: one folder per configured category name. -/
abbrev Dataset := List (String × Folder)

/-- Embeds `core.config.Config` (the fields the dataset manager reads). -/
structure Config where
  categories : List String
  images_per_search : Nat := 50
  images_per_category : Nat := 150
  sleep_time : Nat := 2
  remove_duplicates : Bool := true

/-- Does a file named `<i>.jpg` already exist in the folder? -/
def hasIndex (f : Folder) (i : Nat) : Bool := f.any fun p => p.1 == i

/-- Embeds `img.save(save_path, "JPEG")`: saving truncates and rewrites a
file that already exists at the path, otherwise a new directory entry
appears. -/
def saveAt (f : Folder) (i : Nat) (content : Nat) : Folder :=
  if hasIndex f i then f.map fun p => if p.1 == i then (i, content) else p
  else f ++ [(i, content)]

/-- Embeds `len(list(category_path.glob("*.jpg")))`. -/
def countJpg (f : Folder) : Nat := f.length

/-- Embeds the scan of `DatasetManager.remove_duplicates` over one category
folder: `seen` is the set of content hashes in the `hashes` dictionary so
far; a file whose hash was seen before is unlinked, the first file of each
hash survives. -/
def dedupScan : Folder → List Nat → Folder
  | [], _ => []
  | (i, h) :: rest, seen =>
      if h ∈ seen then dedupScan rest seen
      else (i, h) :: dedupScan rest (h :: seen)

/-- One category's duplicate-removal pass (`hashes = {}` initially). -/
def removeDuplicatesFolder (f : Folder) : Folder := dedupScan f []

/-- Embeds `DatasetManager.remove_duplicates`: immediate return when the
config toggle is off, otherwise every category folder is deduplicated. -/
def DatasetManager.remove_duplicates (cfg : Config) (d : Dataset) : Dataset :=
  if cfg.remove_duplicates then d.map fun p => (p.1, removeDuplicatesFolder p.2)
  else d

/-- State of `_download_category`'s save loop: the category folder on disk,
the running file-index counter and the number of images added this call. -/
structure DLState where
  folder : Folder
  counter : Nat
  added : Nat
deriving DecidableEq, Repr

/-- One candidate file from a query's scratch folder: `none` when
`Image.open`/`convert`/`resize` raises and the file is skipped, `some c`
when the candidate re-encodes to content bytes `c`. -/
abbrev Candidate := Option Nat

/-- Embeds the accept loop of `_download_category`: before each candidate
the guard `image_counter > config.images_per_category or
images_added >= needed` is checked (it guards the per-file loop and the
query loops alike, and the state is unchanged between checks once it
fires); an accepted candidate is saved as `<image_counter>.jpg` and both
counters advance; an invalid candidate is skipped. -/
def processFiles (quota needed : Nat) : List Candidate → DLState → DLState
  | [], s => s
  | c :: cs, s =>
      if quota < s.counter ∨ needed ≤ s.added then s
      else
        match c with
        | none => processFiles quota needed cs s
        | some content => processFiles quota needed cs
            ⟨saveAt s.folder s.counter content, s.counter + 1, s.added + 1⟩

/-- Embeds `needed = needed or config.images_per_category`: Python's `or`
replaces both `None` and `0` by the per-category quota. -/
def effectiveNeeded (needed : Option Nat) (quota : Nat) : Nat :=
  match needed with
  | none => quota
  | some n => if n = 0 then quota else n

/-- Embeds `DatasetManager._download_category` restricted to the category
it downloads into: the candidate files its queries yield are an oracle
list, and the method's returned pair is the final `(image_counter,
images_added)`.  The dataset-wide `remove_corrupted`/`remove_duplicates`
calls at the end of the method change stored files but not the returned
pair; the callers modelled below apply them. -/
def download_category (quota : Nat) (needed : Option Nat) (counter0 : Nat)
    (cands : List Candidate) (f0 : Folder) : DLState :=
  processFiles quota (effectiveNeeded needed quota) cands ⟨f0, counter0, 0⟩

theorem processFiles_stopped (quota needed : Nat) (cs : List Candidate)
    (s : DLState) (h : quota < s.counter ∨ needed ≤ s.added) :
    processFiles quota needed cs s = s := by
  cases cs with
  | nil => rfl
  | cons c cs => simp [processFiles, h]

theorem processFiles_invariant (quota needed : Nat) (cs : List Candidate) :
    ∀ s : DLState,
      (processFiles quota needed cs s).counter + s.added
        = (processFiles quota needed cs s).added + s.counter
      ∧ s.added ≤ (processFiles quota needed cs s).added := by
  induction cs with
  | nil =>
      intro s
      exact ⟨Nat.add_comm _ _, Nat.le_refl _⟩
  | cons c cs ih =>
      intro s
      by_cases hg : quota < s.counter ∨ needed ≤ s.added
      · rw [processFiles_stopped quota needed _ s hg]
        exact ⟨Nat.add_comm _ _, Nat.le_refl _⟩
      · cases c with
        | none =>
            simpa [processFiles, hg] using ih s
        | some content =>
            obtain ⟨h1, h2⟩ :=
              ih ⟨saveAt s.folder s.counter content, s.counter + 1, s.added + 1⟩
            simp only [processFiles, if_neg hg]
            simp only at h1 h2
            constructor
            · omega
            · omega

theorem processFiles_added_le (quota needed : Nat) (cs : List Candidate) :
    ∀ s : DLState, s.added ≤ needed →
      (processFiles quota needed cs s).added ≤ needed := by
  induction cs with
  | nil => intro s hs; exact hs
  | cons c cs ih =>
      intro s hs
      by_cases hg : quota < s.counter ∨ needed ≤ s.added
      · rw [processFiles_stopped quota needed _ s hg]
        exact hs
      · have hlt : s.added < needed := by
          push_neg at hg
          exact hg.2
        cases c with
        | none =>
            simpa [processFiles, hg] using ih s hs
        | some content =>
            simp only [processFiles, if_neg hg]
            exact ih _ hlt

/-- C4.  `_download_category` with starting counter `c` and caller-supplied
target `N ≥ 1`: it adds at most `N` images, the returned counter is
`c + images_added`, and once the guard condition fires — the per-call
target reached (`images_added ≥ N`) or the absolute quota ceiling exceeded
(`image_counter > images_per_category`) — no further candidate is accepted
and the state is final.  `N ≥ 1` matches the spec's contract (`N ≥ 1`):
`needed or config.images_per_category` turns a zero into the full quota. -/
theorem C4_download_category_contract (quota N counter0 : Nat)
    (cands : List Candidate) (f0 : Folder) (hN : 1 ≤ N) :
    (download_category quota (some N) counter0 cands f0).added ≤ N
  ∧ (download_category quota (some N) counter0 cands f0).counter
      = counter0 + (download_category quota (some N) counter0 cands f0).added
  ∧ ∀ s : DLState, quota < s.counter ∨ N ≤ s.added →
      processFiles quota N cands s = s := by
  have hEff : effectiveNeeded (some N) quota = N := by
    simp only [effectiveNeeded]
    rw [if_neg]
    omega
  unfold download_category
  rw [hEff]
  have h1 := processFiles_invariant quota N cands ⟨f0, counter0, 0⟩
  have h2 := processFiles_added_le quota N cands ⟨f0, counter0, 0⟩ (Nat.zero_le N)
  refine ⟨h2, ?_, fun s hs => processFiles_stopped quota N cands s hs⟩
  obtain ⟨h1a, _⟩ := h1
  simp only at h1a
  omega

/-- C4 witness: the contract applied at quota 3, target 2, counter 1, three
valid candidates — two are accepted, the third is refused by the guard. -/
theorem C4_download_category_witness :
    (download_category 3 (some 2) 1 [some 5, some 6, some 7] []).added ≤ 2
  ∧ (download_category 3 (some 2) 1 [some 5, some 6, some 7] []).counter
      = 1 + (download_category 3 (some 2) 1 [some 5, some 6, some 7] []).added
  ∧ ∀ s : DLState, 3 < s.counter ∨ 2 ≤ s.added →
      processFiles 3 2 [some 5, some 6, some 7] s = s :=
  C4_download_category_contract 3 2 1 [some 5, some 6, some 7] [] (by decide)

theorem dedupScan_cons_mem (i c : Nat) (rest : Folder) (seen : List Nat)
    (h : c ∈ seen) : dedupScan ((i, c) :: rest) seen = dedupScan rest seen := by
  simp [dedupScan, h]

theorem dedupScan_cons_notmem (i c : Nat) (rest : Folder) (seen : List Nat)
    (h : c ∉ seen) :
    dedupScan ((i, c) :: rest) seen = (i, c) :: dedupScan rest (c :: seen) := by
  simp [dedupScan, h]

theorem dedupScan_filter (hsh : Nat) : ∀ (f : Folder) (seen : List Nat),
    (dedupScan f seen).filter (fun p => p.2 == hsh)
      = if hsh ∈ seen then [] else (f.filter (fun p => p.2 == hsh)).take 1 := by
  intro f
  induction f with
  | nil =>
      intro seen
      by_cases hs : hsh ∈ seen <;> simp [dedupScan, hs]
  | cons p rest ih =>
      intro seen
      obtain ⟨i, c⟩ := p
      by_cases hcs : c ∈ seen
      · rw [dedupScan_cons_mem i c rest seen hcs, ih seen]
        by_cases hs : hsh ∈ seen
        · simp [hs]
        · have hch : (c == hsh) = false := by
            simp only [beq_eq_false_iff_ne, ne_eq]
            intro he
            exact hs (he ▸ hcs)
          simp [hs, List.filter_cons, hch]
      · rw [dedupScan_cons_notmem i c rest seen hcs]
        by_cases hch : c = hsh
        · subst hch
          have hs : c ∉ seen := hcs
          rw [List.filter_cons]
          simp only [beq_self_eq_true, if_pos]
          rw [ih (c :: seen)]
          simp [hs, List.filter_cons]
        · have hch' : (c == hsh) = false := by
            simp only [beq_eq_false_iff_ne, ne_eq]
            exact hch
          rw [List.filter_cons]
          simp only [hch', Bool.false_eq_true, if_neg, ih (c :: seen)]
          have : (hsh ∈ c :: seen) ↔ (hsh ∈ seen) := by
            simp only [List.mem_cons]
            constructor
            · rintro (h | h)
              · exact absurd h.symm hch
              · exact h
            · exact Or.inr
          by_cases hs : hsh ∈ seen
          · simp [hs, this]
          · simp only [this, hs, if_neg, List.filter_cons, hch']
            simp [hs]

theorem dedupScan_nodup : ∀ (f : Folder) (seen : List Nat),
    ((dedupScan f seen).map Prod.snd).Nodup
      ∧ ∀ x ∈ (dedupScan f seen).map Prod.snd, x ∉ seen := by
  intro f
  induction f with
  | nil => intro seen; simp [dedupScan]
  | cons p rest ih =>
      intro seen
      obtain ⟨i, c⟩ := p
      by_cases hcs : c ∈ seen
      · rw [dedupScan_cons_mem i c rest seen hcs]
        exact ih seen
      · rw [dedupScan_cons_notmem i c rest seen hcs]
        obtain ⟨h1, h2⟩ := ih (c :: seen)
        refine ⟨?_, ?_⟩
        · rw [List.map_cons]
          refine List.nodup_cons.mpr ⟨?_, h1⟩
          intro hc
          exact h2 c hc (List.mem_cons_self _ _)
        · intro x hx
          rw [List.map_cons, List.mem_cons] at hx
          rcases hx with hx | hx
          · rw [hx]
            exact hcs
          · intro hxs
            exact h2 x hx (List.mem_cons_of_mem _ hxs)

theorem dedupScan_mem_snd (x : Nat) : ∀ (f : Folder) (seen : List Nat),
    (x ∈ (dedupScan f seen).map Prod.snd ↔ x ∈ f.map Prod.snd ∧ x ∉ seen) := by
  intro f
  induction f with
  | nil => intro seen; simp [dedupScan]
  | cons p rest ih =>
      intro seen
      obtain ⟨i, c⟩ := p
      by_cases hcs : c ∈ seen
      · rw [dedupScan_cons_mem i c rest seen hcs, ih seen]
        simp only [List.map_cons, List.mem_cons]
        constructor
        · intro h
          exact ⟨Or.inr h.1, h.2⟩
        · rintro ⟨hc | hr, hn⟩
          · exact absurd (hc ▸ hcs) hn
          · exact ⟨hr, hn⟩
      · rw [dedupScan_cons_notmem i c rest seen hcs]
        simp only [List.map_cons, List.mem_cons]
        rw [ih (c :: seen)]
        by_cases hxc : x = c
        · subst hxc
          simp [hcs]
        · simp only [List.mem_cons]
          constructor
          · rintro (h | ⟨hr, hn⟩)
            · exact absurd h hxc
            · exact ⟨Or.inr hr, fun hx => hn (Or.inr hx)⟩
          · rintro ⟨hc | hr, hn⟩
            · exact absurd hc hxc
            · refine Or.inr ⟨hr, ?_⟩
              intro hx
              rcases hx with h | h
              · exact hxc h
              · exact hn h

theorem removeDuplicatesFolder_length (f : Folder) :
    countJpg (removeDuplicatesFolder f) = (f.map Prod.snd).dedup.length := by
  have hnd : ((removeDuplicatesFolder f).map Prod.snd).Nodup :=
    (dedupScan_nodup f []).1
  have hfin : ((removeDuplicatesFolder f).map Prod.snd).toFinset
      = (f.map Prod.snd).toFinset := by
    ext x
    simp only [List.mem_toFinset]
    rw [removeDuplicatesFolder, dedupScan_mem_snd]
    simp
  calc countJpg (removeDuplicatesFolder f)
      = ((removeDuplicatesFolder f).map Prod.snd).length := by
        rw [countJpg, List.length_map]
    _ = ((removeDuplicatesFolder f).map Prod.snd).toFinset.card :=
        (List.toFinset_card_of_nodup hnd).symm
    _ = (f.map Prod.snd).toFinset.card := by rw [hfin]
    _ = (f.map Prod.snd).dedup.length := List.card_toFinset _

/-- C2.  The duplicate-removal pass over one category folder is a true
set-reduction: the surviving files carry pairwise distinct content
hashes; for each hash the survivors are exactly the first file with that
hash in scan order (the filter of the result is the one-element prefix of
the original filter); the number of files removed is the original count
minus the number of distinct hashes — equivalently the surviving count
equals the distinct-hash count.  The last conjunct ties the per-folder
pass to `DatasetManager.remove_duplicates` with the config toggle on. -/
theorem C2_remove_duplicates_set_reduction (f : Folder) :
    ((removeDuplicatesFolder f).map Prod.snd).Nodup
  ∧ (∀ hsh : Nat, (removeDuplicatesFolder f).filter (fun p => p.2 == hsh)
       = (f.filter (fun p => p.2 == hsh)).take 1)
  ∧ countJpg f - countJpg (removeDuplicatesFolder f)
      = countJpg f - (f.map Prod.snd).dedup.length
  ∧ countJpg (removeDuplicatesFolder f) = (f.map Prod.snd).dedup.length
  ∧ (∀ (cfg : Config) (d : Dataset), cfg.remove_duplicates = true →
       DatasetManager.remove_duplicates cfg d
         = d.map fun p => (p.1, removeDuplicatesFolder p.2)) := by
  refine ⟨(dedupScan_nodup f []).1, ?_, ?_, removeDuplicatesFolder_length f, ?_⟩
  · intro hsh
    rw [removeDuplicatesFolder, dedupScan_filter hsh f []]
    simp
  · rw [removeDuplicatesFolder_length f]
  · intro cfg d hflag
    rw [DatasetManager.remove_duplicates, if_pos hflag]

/-! ## core/dataset_manager.py : refill_categories -/

/-- Starting file index a refill round hands `_download_category`:
`image_counter = count_existing + 1`, the file count plus one — not the
largest existing index plus one. -/
def refillStartCounter (f : Folder) : Nat := countJpg f + 1

/-- Embeds the per-category body of one `refill_categories` round: count
the existing `*.jpg` files, skip when `needed = images_per_category -
count_existing ≤ 0`, otherwise run `_download_category(category,
count + 1, needed)` followed by the corruption sweep and the duplicate
removal.  The corruption sweep deletes only files that fail to decode;
every stored file in this model is a re-encoded JPEG, so the sweep removes
nothing and the duplicate removal is the remaining effect.  `cands` is
the oracle list of candidates this category's queries yield. -/
def refillCategory (quota : Nat) (cands : List Candidate) (f : Folder) : Folder :=
  if quota ≤ countJpg f then f
  else removeDuplicatesFolder
    (download_category quota (some (quota - countJpg f))
      (refillStartCounter f) cands f).folder

/-- One round of `refill_categories` over the folders of the configured
categories (by list position): `env0` supplies the candidates each
category's queries yield this round.  The boolean is `categories_filled`:
true exactly when every category already had `needed ≤ 0`. -/
def refillRound (quota : Nat) (env0 : Nat → List Candidate) (idx : Nat) :
    List Folder → List Folder × Bool
  | [] => ([], true)
  | f :: fs =>
      if quota ≤ countJpg f then
        (f :: (refillRound quota env0 (idx + 1) fs).1,
         (refillRound quota env0 (idx + 1) fs).2)
      else
        (refillCategory quota (env0 idx) f :: (refillRound quota env0 (idx + 1) fs).1,
         false)

/-- Embeds the `for round_idx in range(max_rounds)` loop of
`refill_categories`: `fuel` is the number of rounds left and `used` the
number already run; after a round in which every category was satisfied
the method returns (the printed shortfall report when fuel runs out is
non-fatal — the function still returns normally).  Result: final folders
and the number of rounds run. -/
def refillLoop (quota : Nat) (env : Nat → Nat → List Candidate) :
    Nat → Nat → List Folder → List Folder × Nat
  | 0, used, fs => (fs, used)
  | fuel + 1, used, fs =>
      if (refillRound quota (env used) 0 fs).2 then
        ((refillRound quota (env used) 0 fs).1, used + 1)
      else refillLoop quota env fuel (used + 1) (refillRound quota (env used) 0 fs).1

/-- Embeds `DatasetManager.refill_categories` (default `max_rounds = 5`):
the round oracle `env` gives, per round and category position, the
candidates the downloads yield. -/
def refill_categories (quota : Nat) (env : Nat → Nat → List Candidate)
    (maxRounds : Nat) (fs : List Folder) : List Folder × Nat :=
  refillLoop quota env maxRounds 0 fs

theorem refillRound_flag (quota : Nat) (env0 : Nat → List Candidate) :
    ∀ (gs : List Folder) (idx : Nat),
      ((refillRound quota env0 idx gs).2 = true ↔ ∀ f ∈ gs, quota ≤ countJpg f) := by
  intro gs
  induction gs with
  | nil => intro idx; simp [refillRound]
  | cons f fs ih =>
      intro idx
      by_cases hf : quota ≤ countJpg f
      · rw [show refillRound quota env0 idx (f :: fs)
            = (f :: (refillRound quota env0 (idx + 1) fs).1,
               (refillRound quota env0 (idx + 1) fs).2) from by
          simp [refillRound, hf]]
        rw [ih (idx + 1)]
        simp [hf]
      · rw [show refillRound quota env0 idx (f :: fs)
            = (refillCategory quota (env0 idx) f
                :: (refillRound quota env0 (idx + 1) fs).1, false) from by
          simp [refillRound, hf]]
        simp only [Bool.false_eq_true, false_iff]
        intro hall
        exact hf (hall f (List.mem_cons_self _ _))

theorem refillRound_of_filled (quota : Nat) (env0 : Nat → List Candidate) :
    ∀ (gs : List Folder) (idx : Nat),
      (refillRound quota env0 idx gs).2 = true →
      (refillRound quota env0 idx gs).1 = gs := by
  intro gs
  induction gs with
  | nil => intro idx _; rfl
  | cons f fs ih =>
      intro idx hflag
      by_cases hf : quota ≤ countJpg f
      · rw [show refillRound quota env0 idx (f :: fs)
            = (f :: (refillRound quota env0 (idx + 1) fs).1,
               (refillRound quota env0 (idx + 1) fs).2) from by
          simp [refillRound, hf]] at hflag ⊢
        rw [ih (idx + 1) hflag]
      · rw [show refillRound quota env0 idx (f :: fs)
            = (refillCategory quota (env0 idx) f
                :: (refillRound quota env0 (idx + 1) fs).1, false) from by
          simp [refillRound, hf]] at hflag
        cases hflag

theorem refillLoop_rounds_le (quota : Nat) (env : Nat → Nat → List Candidate) :
    ∀ (fuel used : Nat) (fs : List Folder),
      (refillLoop quota env fuel used fs).2 ≤ used + fuel := by
  intro fuel
  induction fuel with
  | zero => intro used fs; simp [refillLoop]
  | succ r ih =>
      intro used fs
      by_cases hflag : (refillRound quota (env used) 0 fs).2 = true
      · simp only [refillLoop, hflag, if_pos]
        omega
      · rw [show refillLoop quota env (r + 1) used fs
            = refillLoop quota env r (used + 1) (refillRound quota (env used) 0 fs).1 from by
          simp [refillLoop, hflag]]
        have := ih (used + 1) (refillRound quota (env used) 0 fs).1
        omega

theorem refillLoop_early_stop (quota : Nat) (env : Nat → Nat → List Candidate) :
    ∀ (fuel used : Nat) (fs : List Folder),
      (refillLoop quota env fuel used fs).2 < used + fuel →
      ∀ f ∈ (refillLoop quota env fuel used fs).1, quota ≤ countJpg f := by
  intro fuel
  induction fuel with
  | zero =>
      intro used fs h
      simp [refillLoop] at h
  | succ r ih =>
      intro used fs h
      by_cases hflag : (refillRound quota (env used) 0 fs).2 = true
      · rw [show refillLoop quota env (r + 1) used fs
            = ((refillRound quota (env used) 0 fs).1, used + 1) from by
          simp [refillLoop, hflag]]
        rw [refillRound_of_filled quota (env used) fs 0 hflag]
        exact fun f hf => ((refillRound_flag quota (env used) fs 0).mp hflag) f hf
      · rw [show refillLoop quota env (r + 1) used fs
            = refillLoop quota env r (used + 1) (refillRound quota (env used) 0 fs).1 from by
          simp [refillLoop, hflag]] at h ⊢
        exact ih (used + 1) _ (by omega)

/-- C5.  The refill controller: it runs at most `max_rounds` rounds; a
round's `categories_filled` flag is true exactly when every category was
already satisfied (`needed = target - current_count ≤ 0`) at that round,
in which case the method returns at the round's end (an early return
shows as fewer than `max_rounds` rounds run, and then every final
category count meets the target); each round leaves a satisfied category
untouched and otherwise invokes the acquisition loop for
`needed = target - count` images starting at counter `count + 1`,
followed by the duplicate removal (the corruption sweep removes nothing
here, every stored file being a re-encoded JPEG); running out of rounds
is non-fatal — the function still returns its final state. -/
theorem C5_refill_controller (quota maxRounds : Nat)
    (env : Nat → Nat → List Candidate) (fs : List Folder) :
    (refill_categories quota env maxRounds fs).2 ≤ maxRounds
  ∧ (∀ (env0 : Nat → List Candidate) (gs : List Folder) (idx : Nat),
       ((refillRound quota env0 idx gs).2 = true ↔ ∀ f ∈ gs, quota ≤ countJpg f))
  ∧ (∀ (env0 : Nat → List Candidate) (idx : Nat) (f : Folder) (gs : List Folder),
       refillRound quota env0 idx (f :: gs)
         = if quota ≤ countJpg f
           then (f :: (refillRound quota env0 (idx + 1) gs).1,
                 (refillRound quota env0 (idx + 1) gs).2)
           else (refillCategory quota (env0 idx) f
                   :: (refillRound quota env0 (idx + 1) gs).1, false))
  ∧ (∀ (cands : List Candidate) (f : Folder), countJpg f < quota →
       refillCategory quota cands f
         = removeDuplicatesFolder
             (download_category quota (some (quota - countJpg f))
               (countJpg f + 1) cands f).folder)
  ∧ ((refill_categories quota env maxRounds fs).2 < maxRounds →
       ∀ f ∈ (refill_categories quota env maxRounds fs).1, quota ≤ countJpg f) := by
  refine ⟨?_, ?_, ?_, ?_, ?_⟩
  · have := refillLoop_rounds_le quota env maxRounds 0 fs
    simpa [refill_categories] using this
  · intro env0 gs idx
    exact refillRound_flag quota env0 gs idx
  · intro env0 idx f gs
    by_cases hf : quota ≤ countJpg f
    · simp [refillRound, hf]
    · simp [refillRound, hf]
  · intro cands f hlt
    rw [refillCategory, if_neg (by omega)]
    rfl
  · intro h f hf
    have := refillLoop_early_stop quota env maxRounds 0 fs
    rw [refill_categories] at h hf
    exact this (by simpa using h) f hf

/-- C1.  Evidence against the no-overwrite part of the claim, at the
concrete failing input: a category folder holding `1.jpg` and `3.jpg`
(the gap at index 2 left by an earlier duplicate or corruption removal).
`refill_categories` starts the counter at `count_existing + 1 = 3`, which
is an index that already exists, and the refill call's first save
truncates and rewrites the existing `3.jpg` (content 11 becomes 12)
instead of creating a new file: the file count stays 2 although one image
was "added".  The monotone-counter part of the claim holds (see the C4
contract); the "never overwrites" part does not. -/
theorem C1_refill_overwrites_existing_index :
    hasIndex [(1, 10), (3, 11)] (refillStartCounter [(1, 10), (3, 11)]) = true
  ∧ (download_category 3 (some 1) (refillStartCounter [(1, 10), (3, 11)])
       [some 12] [(1, 10), (3, 11)]).folder = [(1, 10), (3, 12)]
  ∧ (download_category 3 (some 1) (refillStartCounter [(1, 10), (3, 11)])
       [some 12] [(1, 10), (3, 11)]).added = 1
  ∧ countJpg ((download_category 3 (some 1) (refillStartCounter [(1, 10), (3, 11)])
       [some 12] [(1, 10), (3, 11)]).folder) = countJpg [(1, 10), (3, 11)] := by
  refine ⟨rfl, rfl, rfl, rfl⟩

/-- C6.  Evidence against the claim that category counts never decrease
across refill rounds, at the concrete failing input: the folder holds
`1.jpg` (content 10) and `3.jpg` (content 11), count 2, target 3.  The
refill round computes `needed = 1` and counter `count + 1 = 3`; the one
downloaded image happens to re-encode to the same bytes as `1.jpg`
(content 10) and is saved over the existing distinct `3.jpg`; the
duplicate-removal pass that follows then deletes `3.jpg` as a duplicate
of `1.jpg`.  The category ends the round with 1 image where it had 2 —
a regression caused by the refill counter slip, with no external
deletion involved. -/
theorem C6_refill_count_can_decrease :
    countJpg (refillCategory 3 [some 10] [(1, 10), (3, 11)]) = 1
  ∧ countJpg [(1, 10), (3, 11)] = 2
  ∧ refillCategory 3 [some 10] [(1, 10), (3, 11)] = [(1, 10)] := by
  refine ⟨rfl, rfl, rfl⟩

/-! ## interface_adapters/downloaders/bing_downloader.py -/

/-- Outcome of one `bing_downloader.download` attempt together with the
result collection inside the same `try`: `success files` = no exception,
the collected-and-moved files are `files` (the missing-query-folder early
return is `success []`); `timeout` = `TimeoutError` or `socket.timeout`;
`failure` = any other exception. -/
inductive AttemptOutcome
  | success (files : List Nat)
  | timeout
  | failure
deriving DecidableEq, Repr

/-- Trace of `_download_with_retry`: the result (`Except.error ()` = the
trailing `raise DownloadError`), the number of `bing_downloader.download`
calls made, and the backoff waits slept, in order. -/
structure RetryTrace where
  result : Except Unit (List Nat)
  attempts : Nat
  waits : List Nat
deriving Repr

/-- Embeds the `for retry in range(self.max_retries)` loop of
`_download_with_retry`: `fuel` iterations left, `retry` the current
index.  Success returns the files; a timeout sleeps
`self.sleep_time * (2 ** retry)` and continues; any other exception
breaks out; falling off the end of the loop raises `DownloadError`. -/
def retryLoop (st : Nat) (env : Nat → AttemptOutcome) :
    Nat → Nat → RetryTrace
  | 0, _ => ⟨Except.error (), 0, []⟩
  | fuel + 1, retry =>
      match env retry with
      | AttemptOutcome.success files => ⟨Except.ok files, 1, []⟩
      | AttemptOutcome.timeout =>
          ⟨(retryLoop st env fuel (retry + 1)).result,
           (retryLoop st env fuel (retry + 1)).attempts + 1,
           st * 2 ^ retry :: (retryLoop st env fuel (retry + 1)).waits⟩
      | AttemptOutcome.failure => ⟨Except.error (), 1, []⟩

/-- Embeds `BingDownloader._download_with_retry` for one query: the
attempt outcomes are an oracle indexed by retry number. -/
def download_with_retry (st mr : Nat) (env : Nat → AttemptOutcome) : RetryTrace :=
  retryLoop st env mr 0

/-- Embeds `BingDownloader.__init__`'s keyword defaults. -/
structure BingDownloader where
  sleep_time : Nat := 2
  timeout : Nat := 30
  max_retries : Nat := 3
  use_modifiers : Bool := true

/-- The files one query attempt of `search_and_download` contributes: a
query whose `_download_with_retry` raises `DownloadError` is caught and
contributes nothing. -/
def queryResult (b : BingDownloader) (envs : Nat → Nat → AttemptOutcome)
    (i : Nat) : List Nat :=
  match (download_with_retry b.sleep_time b.max_retries (envs i)).result with
  | Except.ok files => files
  | Except.error _ => []

/-- Embeds `BingDownloader.search_and_download`'s `for attempt in range(3)`
loop: each query attempt's retry result either extends the collected
paths or, on `DownloadError`, is logged and skipped (`continue`). -/
def search_and_download (b : BingDownloader)
    (envs : Nat → Nat → AttemptOutcome) : List Nat :=
  (List.range 3).foldl
    (fun acc i =>
      match (download_with_retry b.sleep_time b.max_retries (envs i)).result with
      | Except.ok files => acc ++ files
      | Except.error _ => acc)
    []

theorem retryLoop_step_success (st : Nat) (env : Nat → AttemptOutcome)
    (fuel retry : Nat) (files : List Nat)
    (h : env retry = AttemptOutcome.success files) :
    retryLoop st env (fuel + 1) retry = ⟨Except.ok files, 1, []⟩ := by
  simp [retryLoop, h]

theorem retryLoop_step_timeout (st : Nat) (env : Nat → AttemptOutcome)
    (fuel retry : Nat) (h : env retry = AttemptOutcome.timeout) :
    retryLoop st env (fuel + 1) retry
      = ⟨(retryLoop st env fuel (retry + 1)).result,
         (retryLoop st env fuel (retry + 1)).attempts + 1,
         st * 2 ^ retry :: (retryLoop st env fuel (retry + 1)).waits⟩ := by
  simp [retryLoop, h]

theorem retryLoop_step_failure (st : Nat) (env : Nat → AttemptOutcome)
    (fuel retry : Nat) (h : env retry = AttemptOutcome.failure) :
    retryLoop st env (fuel + 1) retry = ⟨Except.error (), 1, []⟩ := by
  simp [retryLoop, h]

theorem retryLoop_attempts_le (st : Nat) (env : Nat → AttemptOutcome) :
    ∀ (fuel retry : Nat), (retryLoop st env fuel retry).attempts ≤ fuel := by
  intro fuel
  induction fuel with
  | zero => intro retry; exact Nat.le_refl 0
  | succ r ih =>
      intro retry
      rcases henv : env retry with files | _ | _
      · rw [retryLoop_step_success st env r retry files henv]
        exact Nat.succ_le_succ (Nat.zero_le r)
      · rw [retryLoop_step_timeout st env r retry henv]
        exact Nat.succ_le_succ (ih (retry + 1))
      · rw [retryLoop_step_failure st env r retry henv]
        exact Nat.succ_le_succ (Nat.zero_le r)

theorem waitList_succ (st retry k : Nat) :
    (List.range (k + 1)).map (fun j => st * 2 ^ (retry + j))
      = st * 2 ^ retry :: ((List.range k).map fun j => st * 2 ^ (retry + 1 + j)) := by
  rw [List.range_succ_eq_map, List.map_cons, List.map_map]
  rw [Nat.add_zero]
  refine congrArg (List.cons (st * 2 ^ retry)) ?_
  apply List.map_congr_left
  intro j _
  have hj : retry + (j + 1) = retry + 1 + j := by omega
  simp [Function.comp, hj]

theorem retryLoop_timeout_shift (st : Nat) (env : Nat → AttemptOutcome) :
    ∀ (k fuel retry : Nat), k ≤ fuel →
      (∀ j, j < k → env (retry + j) = AttemptOutcome.timeout) →
      retryLoop st env fuel retry
        = ⟨(retryLoop st env (fuel - k) (retry + k)).result,
           (retryLoop st env (fuel - k) (retry + k)).attempts + k,
           ((List.range k).map fun j => st * 2 ^ (retry + j))
             ++ (retryLoop st env (fuel - k) (retry + k)).waits⟩ := by
  intro k
  induction k with
  | zero =>
      intro fuel retry _ _
      simp
  | succ k ih =>
      intro fuel retry hk henv
      obtain ⟨f, rfl⟩ : ∃ f, fuel = f + 1 := ⟨fuel - 1, by omega⟩
      have h0 : env retry = AttemptOutcome.timeout := by
        have := henv 0 (by omega)
        simpa using this
      rw [retryLoop_step_timeout st env f retry h0]
      have ihh := ih f (retry + 1) (by omega) (fun j hj => by
        have hx := henv (j + 1) (by omega)
        rw [show retry + 1 + j = retry + (j + 1) from by omega]
        exact hx)
      rw [ihh]
      have e1 : f + 1 - (k + 1) = f - k := by omega
      have e2 : retry + (k + 1) = retry + 1 + k := by omega
      rw [e1, e2, waitList_succ st retry k]
      rfl

/-- C3.  `_download_with_retry`'s retry policy for one query, over an
arbitrary attempt-outcome oracle: at most `max_retries` download attempts
are made (default 3, from the constructor); when every attempt times out,
exactly `max_retries` attempts run with the backoff waits
`sleep_time * 2 ^ retry` (retry = 0, 1, ...) before each re-entry of the
loop body, and the query is abandoned (`DownloadError`); when, after `k`
timeouts, attempt `k` fails with a non-timeout error, the loop breaks
immediately — `k + 1` attempts in total, no backoff wait after the
failing attempt — and the query is abandoned; a success after `k`
timeouts likewise ends the loop with the files.  In
`search_and_download` an abandoned query contributes nothing and
processing moves to the next query attempt, as the per-query
decomposition of the collected paths shows. -/
theorem C3_download_retry_policy (st mr : Nat) (env : Nat → AttemptOutcome)
    (b : BingDownloader) (envs : Nat → Nat → AttemptOutcome) :
    (download_with_retry st mr env).attempts ≤ mr
  ∧ ((∀ j, j < mr → env j = AttemptOutcome.timeout) →
       download_with_retry st mr env
         = ⟨Except.error (), mr, (List.range mr).map fun j => st * 2 ^ j⟩)
  ∧ (∀ k, k < mr → (∀ j, j < k → env j = AttemptOutcome.timeout) →
       env k = AttemptOutcome.failure →
       download_with_retry st mr env
         = ⟨Except.error (), k + 1, (List.range k).map fun j => st * 2 ^ j⟩)
  ∧ (∀ k files, k < mr → (∀ j, j < k → env j = AttemptOutcome.timeout) →
       env k = AttemptOutcome.success files →
       download_with_retry st mr env
         = ⟨Except.ok files, k + 1, (List.range k).map fun j => st * 2 ^ j⟩)
  ∧ ({} : BingDownloader).max_retries = 3
  ∧ ({} : BingDownloader).sleep_time = 2
  ∧ search_and_download b envs
      = queryResult b envs 0 ++ queryResult b envs 1 ++ queryResult b envs 2 := by
  have hmap : ∀ n : Nat, ((List.range n).map fun j => st * 2 ^ (0 + j))
      = (List.range n).map fun j => st * 2 ^ j := by
    intro n
    apply List.map_congr_left
    intro j _
    rw [Nat.zero_add]
  refine ⟨retryLoop_attempts_le st env mr 0, ?_, ?_, ?_, rfl, rfl, ?_⟩
  · intro hall
    unfold download_with_retry
    rw [retryLoop_timeout_shift st env mr mr 0 (Nat.le_refl mr)
      (fun j hj => by rw [Nat.zero_add]; exact hall j hj)]
    rw [Nat.sub_self]
    rw [show retryLoop st env 0 (0 + mr) = ⟨Except.error (), 0, []⟩ from rfl]
    rw [hmap mr]
    simp
  · intro k hk hpre hfail
    unfold download_with_retry
    rw [retryLoop_timeout_shift st env k mr 0 (Nat.le_of_lt hk)
      (fun j hj => by rw [Nat.zero_add]; exact hpre j hj)]
    obtain ⟨m, hm⟩ : ∃ m, mr - k = m + 1 := ⟨mr - k - 1, by omega⟩
    rw [hm, retryLoop_step_failure st env m (0 + k) (by rw [Nat.zero_add]; exact hfail)]
    rw [hmap k]
    simp [Nat.add_comm]
  · intro k files hk hpre hsucc
    unfold download_with_retry
    rw [retryLoop_timeout_shift st env k mr 0 (Nat.le_of_lt hk)
      (fun j hj => by rw [Nat.zero_add]; exact hpre j hj)]
    obtain ⟨m, hm⟩ : ∃ m, mr - k = m + 1 := ⟨mr - k - 1, by omega⟩
    rw [hm, retryLoop_step_success st env m (0 + k) files (by rw [Nat.zero_add]; exact hsucc)]
    rw [hmap k]
    simp [Nat.add_comm]
  · have hr : List.range 3 = [0, 1, 2] := rfl
    rcases h0 : (download_with_retry b.sleep_time b.max_retries (envs 0)).result with e0 | f0 <;>
    rcases h1 : (download_with_retry b.sleep_time b.max_retries (envs 1)).result with e1 | f1 <;>
    rcases h2 : (download_with_retry b.sleep_time b.max_retries (envs 2)).result with e2 | f2 <;>
      simp [search_and_download, queryResult, hr, List.foldl_cons, List.foldl_nil,
        h0, h1, h2]

/-! ## core/dataset_manager.py : create_folders / prepare_full_dataset -/

/-- Embeds the `exist_ok=True` per-category `mkdir` of `create_folders`. -/
def mkdirCategory (d : Dataset) (c : String) : Dataset :=
  if d.any fun p => p.1 == c then d else d ++ [(c, [])]

/-- Embeds `DatasetManager.create_folders`: when the dataset path exists
as a directory the whole tree — every category folder and every stored
image — is removed by `shutil.rmtree`; then the root is (re)created empty
and one folder per configured category is made.  Either way the base the
category folders are built on is empty. -/
def create_folders (cfg : Config) (tree : Option Dataset) : Dataset :=
  cfg.categories.foldl mkdirCategory
    (match tree with
     | some _ => ([] : Dataset)
     | none => ([] : Dataset))

/-- Embeds `DatasetManager.prepare_full_dataset` one level up:
`create_folders` runs first, and the remaining stages
(`download_images`, `select_img_for_deletion`, `refill_categories`,
`display_images`) are an arbitrary function `rest` of the tree
`create_folders` left — universally quantified in the theorem, so the
result covers the concrete pipeline. -/
def prepare_full_dataset (cfg : Config) (rest : Dataset → Dataset)
    (tree : Option Dataset) : Dataset :=
  rest (create_folders cfg tree)

theorem foldl_mkdir_empty (cats : List String) :
    ∀ acc : Dataset, (∀ p ∈ acc, p.2 = ([] : Folder)) →
      ∀ p ∈ cats.foldl mkdirCategory acc, p.2 = ([] : Folder) := by
  induction cats with
  | nil => intro acc hacc; exact hacc
  | cons c cs ih =>
      intro acc hacc
      rw [List.foldl_cons]
      apply ih
      intro p hp
      unfold mkdirCategory at hp
      by_cases hc : acc.any fun q => q.1 == c
      · rw [if_pos hc] at hp
        exact hacc p hp
      · rw [if_neg hc] at hp
        rcases List.mem_append.mp hp with h | h
        · exact hacc p h
        · rw [List.mem_singleton.mp h]

theorem mkdirCategory_keys (acc : Dataset) (c0 c : String) :
    (∃ f, (c, f) ∈ mkdirCategory acc c0) ↔ (∃ f, (c, f) ∈ acc) ∨ c = c0 := by
  unfold mkdirCategory
  by_cases hc : acc.any fun q => q.1 == c0
  · rw [if_pos hc]
    constructor
    · intro h
      exact Or.inl h
    · rintro (h | h)
      · exact h
      · subst h
        obtain ⟨q, hq, hq0⟩ := List.any_eq_true.mp hc
        obtain ⟨qa, qb⟩ := q
        have h1 : qa = c := by simpa using hq0
        subst h1
        exact ⟨qb, hq⟩
  · rw [if_neg hc]
    constructor
    · rintro ⟨f, hf⟩
      rcases List.mem_append.mp hf with h | h
      · exact Or.inl ⟨f, h⟩
      · have := List.mem_singleton.mp h
        have hcc : c = c0 := congrArg Prod.fst this
        exact Or.inr hcc
    · rintro (⟨f, hf⟩ | h)
      · exact ⟨f, List.mem_append.mpr (Or.inl hf)⟩
      · subst h
        exact ⟨[], List.mem_append.mpr (Or.inr (List.mem_singleton.mpr rfl))⟩

theorem foldl_mkdir_keys (cats : List String) :
    ∀ (acc : Dataset) (c : String),
      ((∃ f, (c, f) ∈ cats.foldl mkdirCategory acc)
        ↔ (∃ f, (c, f) ∈ acc) ∨ c ∈ cats) := by
  induction cats with
  | nil =>
      intro acc c
      simp
  | cons c0 cs ih =>
      intro acc c
      rw [List.foldl_cons, ih (mkdirCategory acc c0) c, mkdirCategory_keys acc c0 c]
      simp only [List.mem_cons]
      constructor
      · rintro ((h | h) | h)
        · exact Or.inl h
        · exact Or.inr (Or.inl h)
        · exact Or.inr (Or.inr h)
      · rintro (h | h | h)
        · exact Or.inl (Or.inl h)
        · exact Or.inl (Or.inr h)
        · exact Or.inr h

/-- C10.  `create_folders` is destructive: whatever the prior dataset tree
held (`tree`), afterwards every category folder is empty, the tree's keys
are exactly the configured categories, and the result does not depend on
the prior tree at all — a run over an existing directory equals a run
from nothing, so every previously downloaded image is gone.  Since
`prepare_full_dataset` calls `create_folders` first, a full preparation
run from any prior tree equals one from an absent tree: preparation is
destructive of prior state, not additive. -/
theorem C10_create_folders_destructive (cfg : Config) (tree : Option Dataset)
    (d0 : Dataset) :
    (∀ p ∈ create_folders cfg tree, p.2 = ([] : Folder))
  ∧ (∀ c : String, (∃ f, (c, f) ∈ create_folders cfg tree) ↔ c ∈ cfg.categories)
  ∧ create_folders cfg (some d0) = create_folders cfg none
  ∧ (∀ rest : Dataset → Dataset,
       prepare_full_dataset cfg rest (some d0) = prepare_full_dataset cfg rest none) := by
  refine ⟨?_, ?_, rfl, fun rest => rfl⟩
  · apply foldl_mkdir_empty
    intro p hp
    cases tree <;> cases hp
  · intro c
    rw [show create_folders cfg tree = cfg.categories.foldl mkdirCategory [] from by
      cases tree <;> rfl]
    rw [foldl_mkdir_keys cfg.categories [] c]
    simp
